import Mathlib

/-
Shallow embedding of cppkafka's BufferedProducer
(src/include/cppkafka/utils/buffered_producer.h).

The template class BufferedProducer<BufferType> keeps:
  std::map<IndexType, Builder> messages_;        -- the pending table
  std::vector<IndexType> failed_indexes_;        -- the failed-token set
  IndexType current_index_{0};                   -- declared, never read or written
  std::vector<Topic> topics_;                    -- topic cache storage
  std::unordered_map<std::string, unsigned> topic_mapping_;

The broker client (Producer) is external; it is modelled by two finite
scripts consumed by the state transitions: a list of produce results
(one consumed per producer_.produce call; an exhausted script means the
broker accepts everything) and a list of poll batches (one consumed per
producer_.poll call; each batch is the sequence of delivery reports the
poll delivers synchronously to on_delivery_report).  Every external call
is logged in an event trace so that claims about how often the broker
client is contacted can be stated.  The produce script is threaded as an
explicit argument; the poll batches live in the state.

std::map is modelled as an association list sorted by key; emplace does
not overwrite an existing key, exactly as std::map::emplace.  The live
iteration of the for loop in flush is modelled by repeatedly taking the
first entry whose key is above the last visited key, which agrees with
C++ iterator semantics whenever the currently visited entry is not
erased from under the iterator.  Unbounded loops (the queue-full retry
loop terminates because each round consumes one script entry; the outer
flush loop is given explicit fuel, with none modelling divergence).
-/

namespace Cppkafka

structure Topic where
  name : String
deriving DecidableEq, Repr

/-- A message builder: topic handle, partition, key bytes, payload bytes. -/
structure Builder where
  topic : Topic
  partition : Int
  key : List Nat
  payload : List Nat
deriving DecidableEq, Repr

/-- Outcome of one producer_.produce call, as scripted for the broker mock:
accepted, RD_KAFKA_RESP_ERR__QUEUE_FULL, or any other librdkafka error. -/
inductive ProduceResult where
  | ok
  | queueFull
  | fatal (code : Nat)
deriving DecidableEq, Repr

/-- One delivery report handed to the callback during a poll: the token
recovered from the user-data slot and whether message.get_error() is set. -/
structure Report where
  token : Nat
  isError : Bool
deriving DecidableEq, Repr

/-- Log of interactions with the broker client, plus callback invocations. -/
inductive Event where
  | resolveTopic (name : String)
  | submit (token : Nat)
  | poll
  | ack (token : Nat) (isError : Bool)
deriving DecidableEq, Repr

structure PState where
  messages_ : List (Nat × Builder)
  failed_indexes_ : List Nat
  current_index_ : Nat
  topics_ : List Topic
  topic_mapping_ : List (String × Nat)
  pollBatches : List (List Report)
  trace : List Event
deriving DecidableEq, Repr

/-- std::map lookup. -/
def mapFind (m : List (Nat × Builder)) (k : Nat) : Option Builder :=
  match m with
  | [] => none
  | p :: rest => if p.1 = k then some p.2 else mapFind rest k

/-- std::map::emplace: insert keeping key order, no overwrite when the key
is already present. -/
def mapEmplace (m : List (Nat × Builder)) (k : Nat) (v : Builder) :
    List (Nat × Builder) :=
  match m with
  | [] => [(k, v)]
  | p :: rest =>
    if k < p.1 then (k, v) :: p :: rest
    else if k = p.1 then p :: rest
    else p :: mapEmplace rest k v

/-- std::map::erase of the (unique) entry with the given key. -/
def mapErase (m : List (Nat × Builder)) (k : Nat) : List (Nat × Builder) :=
  match m with
  | [] => []
  | p :: rest => if p.1 = k then rest else p :: mapErase rest k

/-- std::unordered_map<std::string, unsigned> lookup. -/
def assocFind (m : List (String × Nat)) (s : String) : Option Nat :=
  match m with
  | [] => none
  | p :: rest => if p.1 = s then some p.2 else assocFind rest s

/-- on_delivery_report (lines 199-214): recover the index from the user
data, no-op when it is not in messages_, record the index in
failed_indexes_ when the report carries an error, erase the entry on
success.  Each callback invocation is logged as an ack event. -/
def on_delivery_report (st : PState) (r : Report) : PState :=
  let st1 := { st with trace := st.trace ++ [Event.ack r.token r.isError] }
  match mapFind st1.messages_ r.token with
  | none => st1
  | some _ =>
    if r.isError then
      { st1 with failed_indexes_ := st1.failed_indexes_ ++ [r.token] }
    else
      { st1 with messages_ := mapErase st1.messages_ r.token }

/-- The delivery reports of one poll batch, handed to the callback in order. -/
def runReports (st : PState) (rs : List Report) : PState :=
  rs.foldl on_delivery_report st

/-- producer_.poll(): consumes the next scripted batch (no callbacks when
the script is exhausted) and synchronously runs the callback on each
report of the batch. -/
def poll (st : PState) : PState :=
  match st.pollBatches with
  | [] => { st with trace := st.trace ++ [Event.poll] }
  | b :: rest =>
    runReports { st with pollBatches := rest,
                         trace := st.trace ++ [Event.poll] } b

/-- get_topic (lines 154-163): look the name up in topic_mapping_; on a
miss, resolve through the broker client (logged as a resolveTopic event;
resolution is modelled as always yielding the handle for that name),
push the handle onto topics_ and record the name in topic_mapping_. -/
def get_topic (st : PState) (name : String) : PState × Topic :=
  match assocFind st.topic_mapping_ name with
  | some idx => (st, st.topics_.getD idx (Topic.mk ""))
  | none =>
    let idx := st.topics_.length
    let t := Topic.mk name
    ({ st with topics_ := st.topics_ ++ [t],
               topic_mapping_ := st.topic_mapping_ ++ [(name, idx)],
               trace := st.trace ++ [Event.resolveTopic name] }, t)

/-- The local builder constructed inside do_add_message: the resolved
topic handle together with the partition, key and payload of the source
builder. -/
def stage (t : Topic) (b : Builder) : Builder :=
  { topic := t, partition := b.partition, key := b.key, payload := b.payload }

/-- do_add_message (lines 126-136): resolve the topic, copy partition,
key and payload into a local builder, then emplace it into messages_
under the key messages_.size().  Note the source takes the index from
messages_.size(); the member current_index_ is never touched. -/
def do_add_message (st : PState) (b : Builder) : PState :=
  let r := get_topic st b.topic.name
  { r.1 with
      messages_ := mapEmplace r.1.messages_ r.1.messages_.length (stage r.2 b) }

/-- add_message (lines 99-107): both overloads delegate to do_add_message. -/
def add_message (st : PState) (b : Builder) : PState :=
  do_add_message st b

/-- Error propagating out of flush: a non-queue-full HandleException
rethrown by produce_message, or the std::out_of_range raised by
messages_.at in the retry loop of flush. -/
inductive FlushErr where
  | fatal (code : Nat)
  | outOfRange
deriving DecidableEq, Repr

/-- produce_message (lines 165-189): submit the message tagged with its
index; on RD_KAFKA_RESP_ERR__QUEUE_FULL, poll once and retry the same
submission with no retry limit; any other error is rethrown (first
component some code).  Each producer_.produce call is logged as a submit
event; the message bytes do not influence the broker scripts, so the
event records the correlation token.  Recursion is structural on the
remaining produce script; an exhausted script accepts the message. -/
def produceLoop (token : Nat) (st : PState) :
    List ProduceResult → Option Nat × PState × List ProduceResult
  | [] => (none, { st with trace := st.trace ++ [Event.submit token] }, [])
  | r :: rest =>
    let st1 := { st with trace := st.trace ++ [Event.submit token] }
    match r with
    | ProduceResult.ok => (none, st1, rest)
    | ProduceResult.fatal e => (some e, st1, rest)
    | ProduceResult.queueFull => produceLoop token (poll st1) rest

/-- The retry loop inside flush (lines 117-121): for each recorded index,
produce_message(index, messages_.at(index)).  std::map::at raises
std::out_of_range when the key is absent; a non-queue-full produce error
propagates. -/
def retryPass :
    List Nat → PState → List ProduceResult →
    Option FlushErr × PState × List ProduceResult
  | [], st, script => (none, st, script)
  | i :: rest, st, script =>
    match mapFind st.messages_ i with
    | none => (some FlushErr.outOfRange, st, script)
    | some _ =>
      match produceLoop i st script with
      | (some e, st1, script1) => (some (FlushErr.fatal e), st1, script1)
      | (none, st1, script1) => retryPass rest st1 script1

/-- First entry of the map whose key is above the given lower bound; this
is the step of the live map iteration of the for loop in flush. -/
def firstKeyAbove (m : List (Nat × Builder)) (lo : Option Nat) :
    Option (Nat × Builder) :=
  match m with
  | [] => none
  | p :: rest =>
    match lo with
    | none => some p
    | some k => if k < p.1 then some p else firstKeyAbove rest lo

/-- The initial for loop of flush (lines 111-113): produce every pending
entry in key order, iterating the live map. -/
def flushFirst :
    Nat → Option Nat → PState → List ProduceResult →
    Option (Option FlushErr × PState × List ProduceResult)
  | fuel, lo, st, script =>
    match firstKeyAbove st.messages_ lo with
    | none => some (none, st, script)
    | some p =>
      match fuel with
      | 0 => none
      | fuel' + 1 =>
        match produceLoop p.1 st script with
        | (some e, st1, script1) =>
          some (some (FlushErr.fatal e), st1, script1)
        | (none, st1, script1) => flushFirst fuel' (some p.1) st1 script1

/-- The while loop of flush (lines 115-123): while messages_ is
non-empty, poll, run the retry pass over the snapshot of
failed_indexes_, then clear failed_indexes_.  An error skips the clear
and propagates with the state it was raised in.  none models running out
of fuel, i.e. a diverging flush. -/
def flushWhile :
    Nat → PState → List ProduceResult →
    Option (Option FlushErr × PState × List ProduceResult)
  | fuel, st, script =>
    if st.messages_.isEmpty then some (none, st, script)
    else
      match fuel with
      | 0 => none
      | fuel' + 1 =>
        let st1 := poll st
        match retryPass st1.failed_indexes_ st1 script with
        | (some e, st2, script2) => some (some e, st2, script2)
        | (none, st2, script2) =>
          flushWhile fuel' { st2 with failed_indexes_ := [] } script2

/-- flush (lines 109-124): the initial produce pass followed by the
drain loop. -/
def flush (fuel : Nat) (st : PState) (script : List ProduceResult) :
    Option (Option FlushErr × PState × List ProduceResult) :=
  match flushFirst fuel none st script with
  | none => none
  | some (some e, st1, script1) => some (some e, st1, script1)
  | some (none, st1, script1) => flushWhile fuel st1 script1

/-- A freshly constructed buffered producer with the given poll script. -/
def initState (polls : List (List Report)) : PState :=
  { messages_ := [], failed_indexes_ := [], current_index_ := 0,
    topics_ := [], topic_mapping_ := [], pollBatches := polls, trace := [] }

/-- A sequence of add_message calls. -/
def stageAll (bs : List Builder) (st : PState) : PState :=
  bs.foldl add_message st

/-- Number of produce calls for a given token in a trace. -/
def countSubmit (tr : List Event) (t : Nat) : Nat :=
  (tr.filter (fun e => e = Event.submit t)).length

/-- Number of topic resolution calls for a given name in a trace. -/
def countResolve (tr : List Event) (name : String) : Nat :=
  (tr.filter (fun e => e = Event.resolveTopic name)).length

/-- Number of poll calls in a trace. -/
def countPoll (tr : List Event) : Nat :=
  (tr.filter (fun e => e = Event.poll)).length

/-- The ascending list s, s+1, ..., s+n-1. -/
def natsFrom : Nat → Nat → List Nat
  | _, 0 => []
  | s, n + 1 => s :: natsFrom (s + 1) n

/-- The builder as staged by do_add_message: same fields, topic handle
resolved for its name. -/
def stageSelf (b : Builder) : Builder :=
  stage (Topic.mk b.topic.name) b

/-- The pending-table contents obtained by staging a list of builders
starting at the given key. -/
def stagedFrom : Nat → List Builder → List (Nat × Builder)
  | _, [] => []
  | n, b :: bs => (n, stageSelf b) :: stagedFrom (n + 1) bs

/-- Erase a list of keys, in order. -/
def eraseAll (m : List (Nat × Builder)) (ts : List Nat) : List (Nat × Builder) :=
  ts.foldl mapErase m

/-- Topic-cache consistency: every cached name maps to an index into
topics_ holding the handle resolved for that name. -/
def TopicInv (st : PState) : Prop :=
  ∀ name i, assocFind st.topic_mapping_ name = some i →
    i < st.topics_.length ∧ st.topics_.getD i (Topic.mk "") = Topic.mk name

/-- Keys of the pending table. -/
def keysOf (m : List (Nat × Builder)) : List Nat :=
  m.map Prod.fst

/-- All pending keys are below the table size; this holds for every table
built by enqueues alone and makes emplace append at the end. -/
def KeyBound (st : PState) : Prop :=
  ∀ p ∈ st.messages_, p.1 < st.messages_.length

/-- The iteration bound of the for loop of flush: the key is above the
last visited key (or any key, before the first step). -/
def belowKey (lo : Option Nat) (x : Nat) : Prop :=
  match lo with
  | none => True
  | some a => a < x

/-- A small concrete builder used in the concrete scenarios. -/
def mkB (name : String) (pl : Nat) : Builder :=
  { topic := Topic.mk name, partition := 0, key := [], payload := [pl] }

/-- State of the buffer after enqueueing one message and fully draining
it with one flush (broker acks token 0). -/
def c1_mid : PState :=
  { messages_ := [], failed_indexes_ := [], current_index_ := 0,
    topics_ := [Topic.mk "t"], topic_mapping_ := [("t", 0)],
    pollBatches := [],
    trace := [Event.resolveTopic "t", Event.submit 0, Event.poll,
              Event.ack 0 false] }

/-- State of the buffer after three enqueues and a flush aborted by a
fatal produce error on token 1, with token 0 already acknowledged. -/
def c2_mid : PState :=
  { messages_ := [(1, mkB "t" 2), (2, mkB "t" 3)],
    failed_indexes_ := [], current_index_ := 0,
    topics_ := [Topic.mk "t"], topic_mapping_ := [("t", 0)],
    pollBatches := [],
    trace := [Event.resolveTopic "t", Event.submit 0, Event.submit 1,
              Event.poll, Event.ack 0 false, Event.submit 1] }

/-- State at which the retry loop of flush calls messages_.at on the
already-erased token 1. -/
def c9_final : PState :=
  { messages_ := [(0, mkB "t" 1)],
    failed_indexes_ := [0, 1], current_index_ := 0,
    topics_ := [Topic.mk "t"], topic_mapping_ := [("t", 0)],
    pollBatches := [],
    trace := [Event.resolveTopic "t", Event.submit 0, Event.submit 1,
              Event.poll, Event.ack 0 true, Event.ack 1 true,
              Event.submit 0, Event.poll, Event.ack 1 false,
              Event.submit 0] }

/-! Helper lemmas. -/

theorem mapFind_mem {m : List (Nat × Builder)} {k : Nat} {v : Builder}
    (h : mapFind m k = some v) : (k, v) ∈ m := by
  induction m with
  | nil => simp [mapFind] at h
  | cons p rest ih =>
    obtain ⟨p1, p2⟩ := p
    rw [mapFind] at h
    by_cases hk : p1 = k
    · simp [hk] at h
      rw [hk, h]
      exact List.mem_cons_self _ _
    · simp [hk] at h
      exact List.mem_cons_of_mem _ (ih h)

theorem mapFind_emplace_of_find {m : List (Nat × Builder)} (k' : Nat) (v' : Builder)
    {k : Nat} {v : Builder} (hp : List.Pairwise (fun p q => p.1 < q.1) m)
    (h : mapFind m k = some v) : mapFind (mapEmplace m k' v') k = some v := by
  induction m with
  | nil => simp [mapFind] at h
  | cons p rest ih =>
    rw [List.pairwise_cons] at hp
    rw [mapEmplace]
    by_cases h1 : k' < p.1
    · have hmem := mapFind_mem h
      have hge : p.1 ≤ k := by
        rcases List.mem_cons.mp hmem with heq | hmem2
        · have h3 : p.1 = k := by rw [← heq]
          omega
        · exact Nat.le_of_lt (hp.1 _ hmem2)
      have hne : k' ≠ k := by omega
      rw [if_pos h1, mapFind, if_neg hne]
      exact h
    · rw [if_neg h1]
      by_cases h2 : k' = p.1
      · rw [if_pos h2]
        exact h
      · rw [if_neg h2, mapFind]
        rw [mapFind] at h
        by_cases hk : p.1 = k
        · rw [if_pos hk] at h ⊢
          exact h
        · rw [if_neg hk] at h ⊢
          exact ih hp.2 h

theorem get_topic_messages (st : PState) (name : String) :
    ((get_topic st name).1).messages_ = st.messages_ := by
  unfold get_topic
  cases h : assocFind st.topic_mapping_ name <;> simp [h]

theorem countResolve_append (t1 t2 : List Event) (n : String) :
    countResolve (t1 ++ t2) n = countResolve t1 n + countResolve t2 n := by
  simp [countResolve, List.filter_append]

theorem countResolve_single (m n : String) :
    countResolve [Event.resolveTopic m] n = if m = n then 1 else 0 := by
  by_cases h : m = n <;> simp [countResolve, h]

theorem do_add_message_cache_hit (st : PState) (b : Builder) (i : Nat)
    (h : assocFind st.topic_mapping_ b.topic.name = some i) :
    (do_add_message st b).topic_mapping_ = st.topic_mapping_
    ∧ (do_add_message st b).trace = st.trace := by
  unfold do_add_message get_topic
  simp [h]

theorem do_add_message_cache_miss (st : PState) (b : Builder)
    (h : assocFind st.topic_mapping_ b.topic.name = none) :
    (do_add_message st b).topic_mapping_
      = st.topic_mapping_ ++ [(b.topic.name, st.topics_.length)]
    ∧ (do_add_message st b).trace
      = st.trace ++ [Event.resolveTopic b.topic.name] := by
  unfold do_add_message get_topic
  simp [h]

theorem assocFind_append_left {m : List (String × Nat)} {s : String} {x : Nat}
    (h : assocFind m s = some x) (l : List (String × Nat)) :
    assocFind (m ++ l) s = some x := by
  induction m with
  | nil => simp [assocFind] at h
  | cons p rest ih =>
    rw [assocFind] at h
    rw [List.cons_append, assocFind]
    by_cases hp : p.1 = s
    · rw [if_pos hp] at h ⊢
      exact h
    · rw [if_neg hp] at h ⊢
      exact ih h

theorem assocFind_append_right {m : List (String × Nat)} {s : String}
    (h : assocFind m s = none) (k : String) (v : Nat) :
    assocFind (m ++ [(k, v)]) s = if k = s then some v else none := by
  induction m with
  | nil => simp [assocFind]
  | cons p rest ih =>
    rw [assocFind] at h
    by_cases hp : p.1 = s
    · rw [if_pos hp] at h
      exact absurd h (by simp)
    · rw [if_neg hp] at h
      rw [List.cons_append, assocFind, if_neg hp]
      exact ih h

theorem c6_aux (bs : List Builder) :
    ∀ st : PState,
    (∀ n, countResolve st.trace n
        = if (assocFind st.topic_mapping_ n).isSome then 1 else 0) →
    ∀ name, countResolve (stageAll bs st).trace name
      = if ((assocFind st.topic_mapping_ name).isSome
            ∨ name ∈ bs.map (fun b => b.topic.name)) then 1 else 0 := by
  induction bs with
  | nil =>
    intro st hinv name
    simp [stageAll, hinv name]
  | cons b bs ih =>
    intro st hinv name
    have hstep : stageAll (b :: bs) st = stageAll bs (add_message st b) := by
      simp [stageAll]
    rw [hstep]
    cases hfound : assocFind st.topic_mapping_ b.topic.name with
    | some i =>
      have hmt := do_add_message_cache_hit st b i hfound
      have hinv1 : ∀ n, countResolve (add_message st b).trace n
          = if (assocFind (add_message st b).topic_mapping_ n).isSome then 1 else 0 := by
        intro n
        rw [add_message] at *
        rw [hmt.1, hmt.2]
        exact hinv n
      have h2 := ih (add_message st b) hinv1 name
      rw [h2]
      rw [add_message, hmt.1]
      by_cases hn : name = b.topic.name
      · have : (assocFind st.topic_mapping_ name).isSome := by
          rw [hn, hfound]
          rfl
        simp [this]
      · simp [List.map_cons, List.mem_cons, hn]
    | none =>
      have hmt := do_add_message_cache_miss st b hfound
      have hinv1 : ∀ n, countResolve (add_message st b).trace n
          = if (assocFind (add_message st b).topic_mapping_ n).isSome then 1 else 0 := by
        intro n
        rw [add_message] at *
        rw [hmt.1, hmt.2, countResolve_append, countResolve_single, hinv n]
        cases h2 : assocFind st.topic_mapping_ n with
        | some x =>
          have hne : ¬ b.topic.name = n := by
            intro hc
            rw [hc] at hfound
            rw [hfound] at h2
            exact Option.noConfusion h2
          rw [assocFind_append_left h2]
          simp [hne]
        | none =>
          rw [assocFind_append_right h2]
          by_cases hb : b.topic.name = n <;> simp [hb]
      have h2 := ih (add_message st b) hinv1 name
      rw [h2]
      rw [add_message, hmt.1]
      cases h3 : assocFind st.topic_mapping_ name with
      | some x =>
        rw [assocFind_append_left h3]
        simp
      | none =>
        rw [assocFind_append_right h3]
        by_cases hb : b.topic.name = name
        · simp [hb]
        · have : ¬ name = b.topic.name := fun hc => hb hc.symm
          simp [hb, h3, List.map_cons, List.mem_cons, this]

/-- Claim C6: over any sequence of enqueues on a fresh buffer, the broker
client is asked to resolve a topic name exactly once per distinct name
appearing in the sequence (on its first occurrence; get_topic serves
every later occurrence from topic_mapping_ without a broker call), and
never for a name that does not appear. -/
theorem c6_topic_resolution_once (bs : List Builder)
    (polls : List (List Report)) (name : String) :
    countResolve (stageAll bs (initState polls)).trace name
      = if name ∈ bs.map (fun b => b.topic.name) then 1 else 0 := by
  have h := c6_aux bs (initState polls)
    (by intro n; simp [initState, countResolve, assocFind]) name
  simpa [initState, assocFind] using h

theorem countSubmit_append (t1 t2 : List Event) (t : Nat) :
    countSubmit (t1 ++ t2) t = countSubmit t1 t + countSubmit t2 t := by
  simp [countSubmit, List.filter_append]

theorem countPoll_append (t1 t2 : List Event) :
    countPoll (t1 ++ t2) = countPoll t1 + countPoll t2 := by
  simp [countPoll, List.filter_append]

theorem countSubmit_block (K : Nat) (t : Nat) :
    countSubmit ((List.replicate K [Event.submit t, Event.poll]).flatten) t = K := by
  induction K with
  | zero => simp [countSubmit]
  | succ n ih =>
    rw [List.replicate_succ, List.flatten_cons, countSubmit_append, ih]
    simp [countSubmit]
    omega

theorem countPoll_block (K t : Nat) :
    countPoll ((List.replicate K [Event.submit t, Event.poll]).flatten) = K := by
  induction K with
  | zero => simp [countPoll]
  | succ n ih =>
    rw [List.replicate_succ, List.flatten_cons, countPoll_append, ih]
    simp [countPoll]
    omega

/-- The produce/poll retry loop of produce_message against a broker that
answers queue-full K times and then accepts: the submission is attempted
K+1 times with exactly one poll (consuming one scripted empty batch)
between consecutive attempts. -/
theorem produceLoop_replicate (K : Nat) (token : Nat) :
    ∀ (st : PState) (rest : List (List Report)),
    st.pollBatches = List.replicate K ([] : List Report) ++ rest →
    produceLoop token st
        (List.replicate K ProduceResult.queueFull ++ [ProduceResult.ok])
      = (none,
         { st with
             trace := st.trace
               ++ ((List.replicate K [Event.submit token, Event.poll]).flatten
                   ++ [Event.submit token]),
             pollBatches := rest },
         []) := by
  induction K with
  | zero =>
    intro st rest h
    simp only [List.replicate, List.nil_append, List.flatten_nil] at h ⊢
    rw [produceLoop]
    rw [← h]
  | succ n ih =>
    intro st rest h
    rw [List.replicate_succ, List.cons_append, produceLoop]
    have hpoll : poll { st with trace := st.trace ++ [Event.submit token] }
        = { st with trace := st.trace ++ [Event.submit token, Event.poll],
                    pollBatches := List.replicate n ([] : List Report) ++ rest } := by
      rw [List.replicate_succ, List.cons_append] at h
      rw [poll]
      simp only [h]
      simp [runReports]
    rw [hpoll]
    rw [ih _ rest (by rfl)]
    simp [List.replicate_succ, List.flatten_cons]

theorem mapEmplace_append {m : List (Nat × Builder)} (k : Nat) (v : Builder)
    (h : ∀ p ∈ m, p.1 < k) : mapEmplace m k v = m ++ [(k, v)] := by
  induction m with
  | nil => rfl
  | cons p rest ih =>
    have hp := h p (List.mem_cons_self _ _)
    rw [mapEmplace, if_neg (by omega), if_neg (by omega), List.cons_append,
        ih (fun q hq => h q (List.mem_cons_of_mem _ hq))]

theorem getD_app_left : ∀ (l l2 : List Topic) (i : Nat) (d : Topic),
    i < l.length → (l ++ l2).getD i d = l.getD i d := by
  intro l
  induction l with
  | nil => intro l2 i d h; simp at h
  | cons a l ih =>
    intro l2 i d h
    cases i with
    | zero => rfl
    | succ i =>
      simp only [List.cons_append, List.getD_cons_succ]
      exact ih l2 i d (by simpa using h)

theorem getD_app_self : ∀ (l : List Topic) (a d : Topic),
    (l ++ [a]).getD l.length d = a := by
  intro l
  induction l with
  | nil => intro a d; rfl
  | cons x l ih =>
    intro a d
    simp only [List.cons_append, List.length_cons, List.getD_cons_succ]
    exact ih a d

theorem countSubmit_resolve_single (n : String) (t : Nat) :
    countSubmit [Event.resolveTopic n] t = 0 := by
  simp [countSubmit]

theorem countSubmit_poll_single (t : Nat) :
    countSubmit [Event.poll] t = 0 := by
  simp [countSubmit]

theorem countSubmit_acks (rs : List Report) (t : Nat) :
    countSubmit (rs.map (fun r => Event.ack r.token false)) t = 0 := by
  induction rs with
  | nil => simp [countSubmit]
  | cons r rs ih =>
    rw [List.map_cons, show (Event.ack r.token false :: rs.map fun r => Event.ack r.token false)
        = [Event.ack r.token false] ++ rs.map fun r => Event.ack r.token false by rfl,
      countSubmit_append, ih]
    simp [countSubmit]

theorem countSubmit_map_keys (l : List (Nat × Builder)) (t : Nat) :
    countSubmit (l.map (fun p => Event.submit p.1)) t = List.count t (keysOf l) := by
  induction l with
  | nil => simp [countSubmit, keysOf]
  | cons p l ih =>
    rw [List.map_cons, show (Event.submit p.1 :: l.map fun p => Event.submit p.1)
        = [Event.submit p.1] ++ l.map fun p => Event.submit p.1 by rfl,
      countSubmit_append, ih]
    by_cases h : p.1 = t
    · simp [countSubmit, keysOf, h, List.count_cons]
      omega
    · simp [countSubmit, keysOf, h, List.count_cons]

theorem natsFrom_length : ∀ (n s : Nat), (natsFrom s n).length = n := by
  intro n
  induction n with
  | zero => intro s; rfl
  | succ n ih => intro s; simp [natsFrom, ih]

theorem natsFrom_mem : ∀ (n s x : Nat), x ∈ natsFrom s n ↔ s ≤ x ∧ x < s + n := by
  intro n
  induction n with
  | zero => intro s x; simp [natsFrom]
  | succ n ih =>
    intro s x
    rw [natsFrom, List.mem_cons, ih (s + 1) x]
    omega

theorem natsFrom_pairwise : ∀ (n s : Nat), List.Pairwise (· < ·) (natsFrom s n) := by
  intro n
  induction n with
  | zero => intro s; simp [natsFrom]
  | succ n ih =>
    intro s
    rw [natsFrom, List.pairwise_cons]
    exact ⟨fun x hx => ((natsFrom_mem n (s + 1) x).mp hx).1, ih (s + 1)⟩

theorem natsFrom_count : ∀ (n s t : Nat),
    List.count t (natsFrom s n) = if s ≤ t ∧ t < s + n then 1 else 0 := by
  intro n
  induction n with
  | zero =>
    intro s t
    have h0 : ¬ (s ≤ t ∧ t < s) := by omega
    simp [natsFrom, h0]
  | succ n ih =>
    intro s t
    rw [natsFrom, List.count_cons, ih (s + 1) t]
    by_cases h1 : s = t
    · have h2 : ¬ (s + 1 ≤ t ∧ t < s + 1 + n) := by omega
      simp [h1, h2]
    · have : (s == t) = false := by simp [h1]
      rw [this]
      by_cases h2 : s + 1 ≤ t ∧ t < s + 1 + n
      · have h3 : s ≤ t ∧ t < s + (n + 1) := by omega
        simp [h2, h3]
      · have h3 : ¬ (s ≤ t ∧ t < s + (n + 1)) := by omega
        simp [h2, h3]

theorem natsFrom_take : ∀ (n s k : Nat),
    (natsFrom s n).take k = natsFrom s (min k n) := by
  intro n
  induction n with
  | zero => intro s k; simp [natsFrom]
  | succ n ih =>
    intro s k
    cases k with
    | zero => simp [natsFrom]
    | succ k =>
      rw [natsFrom, List.take_succ_cons, ih (s + 1) k]
      have : min (k + 1) (n + 1) = (min k n) + 1 := by omega
      rw [this, natsFrom]

theorem stagedFrom_keys : ∀ (bs : List Builder) (n : Nat),
    keysOf (stagedFrom n bs) = natsFrom n bs.length := by
  intro bs
  induction bs with
  | nil => intro n; rfl
  | cons b bs ih => intro n; simp [stagedFrom, natsFrom, keysOf] at *; exact ih (n + 1)

theorem stagedFrom_length : ∀ (bs : List Builder) (n : Nat),
    (stagedFrom n bs).length = bs.length := by
  intro bs
  induction bs with
  | nil => intro n; rfl
  | cons b bs ih => intro n; simp [stagedFrom, ih]

theorem stagedFrom_pairwise (bs : List Builder) (n : Nat) :
    List.Pairwise (fun p q : Nat × Builder => p.1 < q.1) (stagedFrom n bs) := by
  have h := natsFrom_pairwise bs.length n
  rw [← stagedFrom_keys] at h
  exact (List.pairwise_map.mp h)

theorem get_topic_spec (st : PState) (name : String) (h : TopicInv st) :
    (get_topic st name).2 = Topic.mk name
    ∧ TopicInv (get_topic st name).1
    ∧ ((get_topic st name).1).messages_ = st.messages_
    ∧ ((get_topic st name).1).failed_indexes_ = st.failed_indexes_
    ∧ ((get_topic st name).1).pollBatches = st.pollBatches
    ∧ ((get_topic st name).1).current_index_ = st.current_index_
    ∧ (∀ t, countSubmit ((get_topic st name).1).trace t = countSubmit st.trace t) := by
  cases hf : assocFind st.topic_mapping_ name with
  | some i =>
    have hgt : get_topic st name = (st, st.topics_.getD i (Topic.mk "")) := by
      unfold get_topic
      simp only [hf]
    rw [hgt]
    exact ⟨(h name i hf).2, h, rfl, rfl, rfl, rfl, fun t => rfl⟩
  | none =>
    have hgt : get_topic st name
        = ({ st with topics_ := st.topics_ ++ [Topic.mk name],
                     topic_mapping_ := st.topic_mapping_
                       ++ [(name, st.topics_.length)],
                     trace := st.trace ++ [Event.resolveTopic name] },
           Topic.mk name) := by
      unfold get_topic
      simp only [hf]
    rw [hgt]
    refine ⟨rfl, ?_, rfl, rfl, rfl, rfl, ?_⟩
    · intro n2 i2 hfind2
      simp only at hfind2
      cases hcase : assocFind st.topic_mapping_ n2 with
      | some x =>
        rw [assocFind_append_left hcase] at hfind2
        obtain ⟨hx1, hx2⟩ := h n2 x hcase
        have hi2 : i2 = x := by
          injection hfind2 with h3
          omega
        subst hi2
        constructor
        · simp only [List.length_append]
          omega
        · rw [getD_app_left _ _ _ _ hx1]
          exact hx2
      | none =>
        rw [assocFind_append_right hcase] at hfind2
        by_cases hn : name = n2
        · rw [if_pos hn] at hfind2
          have hi2 : i2 = st.topics_.length := by
            injection hfind2 with h3
            omega
          subst hi2
          constructor
          · simp
          · rw [getD_app_self, hn]
        · rw [if_neg hn] at hfind2
          exact Option.noConfusion hfind2
    · intro t
      simp only [countSubmit_append, countSubmit_resolve_single]
      omega

theorem do_add_message_spec (st : PState) (b : Builder) (hT : TopicInv st)
    (hB : ∀ p ∈ st.messages_, p.1 < st.messages_.length) :
    (do_add_message st b).messages_
        = st.messages_ ++ [(st.messages_.length, stageSelf b)]
    ∧ TopicInv (do_add_message st b)
    ∧ (∀ p ∈ (do_add_message st b).messages_,
        p.1 < (do_add_message st b).messages_.length)
    ∧ (do_add_message st b).failed_indexes_ = st.failed_indexes_
    ∧ (do_add_message st b).pollBatches = st.pollBatches
    ∧ (do_add_message st b).current_index_ = st.current_index_
    ∧ (∀ t, countSubmit (do_add_message st b).trace t = countSubmit st.trace t) := by
  obtain ⟨h2, hTr, hmsg, hfail, hpolls, hcur, hcnt⟩ :=
    get_topic_spec st b.topic.name hT
  have hmessages : (do_add_message st b).messages_
      = st.messages_ ++ [(st.messages_.length, stageSelf b)] := by
    show mapEmplace ((get_topic st b.topic.name).1).messages_
        ((get_topic st b.topic.name).1).messages_.length
        (stage (get_topic st b.topic.name).2 b)
      = st.messages_ ++ [(st.messages_.length, stageSelf b)]
    rw [hmsg, h2, mapEmplace_append _ _ hB]
    rfl
  refine ⟨hmessages, ?_, ?_, ?_, ?_, ?_, ?_⟩
  · intro n2 i2 hfind2
    have hmap : (do_add_message st b).topic_mapping_
        = ((get_topic st b.topic.name).1).topic_mapping_ := rfl
    have htop : (do_add_message st b).topics_
        = ((get_topic st b.topic.name).1).topics_ := rfl
    rw [hmap] at hfind2
    rw [htop]
    exact hTr n2 i2 hfind2
  · intro p hp
    rw [hmessages] at hp
    rw [hmessages]
    rcases List.mem_append.mp hp with hin | hin
    · have h5 := hB p hin
      simp only [List.length_append, List.length_cons, List.length_nil]
      omega
    · simp only [List.mem_singleton] at hin
      subst hin
      simp
  · rw [show (do_add_message st b).failed_indexes_
        = ((get_topic st b.topic.name).1).failed_indexes_ from rfl, hfail]
  · rw [show (do_add_message st b).pollBatches
        = ((get_topic st b.topic.name).1).pollBatches from rfl, hpolls]
  · rw [show (do_add_message st b).current_index_
        = ((get_topic st b.topic.name).1).current_index_ from rfl, hcur]
  · intro t
    rw [show (do_add_message st b).trace
        = ((get_topic st b.topic.name).1).trace from rfl]
    exact hcnt t

theorem stageAll_spec (bs : List Builder) :
    ∀ st : PState, TopicInv st →
    (∀ p ∈ st.messages_, p.1 < st.messages_.length) →
    (stageAll bs st).messages_
        = st.messages_ ++ stagedFrom st.messages_.length bs
    ∧ TopicInv (stageAll bs st)
    ∧ (stageAll bs st).failed_indexes_ = st.failed_indexes_
    ∧ (stageAll bs st).pollBatches = st.pollBatches
    ∧ (stageAll bs st).current_index_ = st.current_index_
    ∧ (∀ t, countSubmit (stageAll bs st).trace t = countSubmit st.trace t) := by
  induction bs with
  | nil =>
    intro st hT hB
    exact ⟨by simp [stageAll, stagedFrom], hT, rfl, rfl, rfl, fun t => rfl⟩
  | cons b bs ih =>
    intro st hT hB
    have hstep : stageAll (b :: bs) st = stageAll bs (add_message st b) := by
      simp [stageAll]
    obtain ⟨hmsg, hT1, hB1, hfail1, hpolls1, hcur1, hcnt1⟩ :=
      do_add_message_spec st b hT hB
    obtain ⟨hmsg2, hT2, hfail2, hpolls2, hcur2, hcnt2⟩ :=
      ih (add_message st b) hT1 hB1
    refine ⟨?_, ?_, ?_, ?_, ?_, ?_⟩
    · rw [hstep, hmsg2, add_message, hmsg]
      have hl2 : (st.messages_ ++ [(st.messages_.length, stageSelf b)]).length
          = st.messages_.length + 1 := by simp
      rw [hl2, stagedFrom, List.append_assoc]
      rfl
    · rw [hstep]; exact hT2
    · rw [hstep, hfail2, add_message, hfail1]
    · rw [hstep, hpolls2, add_message, hpolls1]
    · rw [hstep, hcur2, add_message, hcur1]
    · intro t
      rw [hstep, hcnt2 t, add_message, hcnt1 t]

theorem firstKeyAbove_none {m : List (Nat × Builder)} {lo : Option Nat}
    (h : ∀ p ∈ m, ¬ belowKey lo p.1) : firstKeyAbove m lo = none := by
  induction m with
  | nil => rfl
  | cons p rest ih =>
    cases lo with
    | none => exact absurd trivial (h p (List.mem_cons_self _ _))
    | some a =>
      have hp : ¬ a < p.1 := h p (List.mem_cons_self _ _)
      rw [firstKeyAbove]
      simp only [if_neg hp]
      exact ih (fun q hq => h q (List.mem_cons_of_mem _ hq))

theorem firstKeyAbove_split {pre post : List (Nat × Builder)} {k : Nat}
    {v : Builder} {lo : Option Nat}
    (hpre : ∀ p ∈ pre, ¬ belowKey lo p.1) (hk : belowKey lo k) :
    firstKeyAbove (pre ++ (k, v) :: post) lo = some (k, v) := by
  induction pre with
  | nil =>
    cases lo with
    | none => rfl
    | some a =>
      rw [List.nil_append, firstKeyAbove]
      rw [if_pos (show a < k from hk)]
  | cons q pre ih =>
    cases lo with
    | none => exact absurd trivial (hpre q (List.mem_cons_self _ _))
    | some a =>
      have hq : ¬ a < q.1 := hpre q (List.mem_cons_self _ _)
      rw [List.cons_append, firstKeyAbove]
      simp only [if_neg hq]
      exact ih (fun p hp => hpre p (List.mem_cons_of_mem _ hp))

/-- The initial pass of flush with a broker that accepts every
submission: every pending entry is produced exactly once, in key order,
and nothing but the trace changes. -/
theorem flushFirst_ok_script :
    ∀ (suffix pre : List (Nat × Builder)) (lo : Option Nat) (fuel : Nat)
      (st : PState),
    st.messages_ = pre ++ suffix →
    List.Pairwise (fun p q : Nat × Builder => p.1 < q.1) (pre ++ suffix) →
    (∀ p ∈ pre, ¬ belowKey lo p.1) →
    (∀ p ∈ suffix, belowKey lo p.1) →
    suffix.length ≤ fuel →
    flushFirst fuel lo st []
      = some (none,
          { st with trace := st.trace
              ++ suffix.map (fun p => Event.submit p.1) }, []) := by
  intro suffix
  induction suffix with
  | nil =>
    intro pre lo fuel st hm hp hpre hsuf hf
    rw [List.append_nil] at hm
    have hfk : firstKeyAbove st.messages_ lo = none := by
      rw [hm]
      exact firstKeyAbove_none hpre
    rw [flushFirst, hfk]
    simp
  | cons p suffix ih =>
    intro pre lo fuel st hm hp hpre hsuf hf
    obtain ⟨k, v⟩ := p
    have hfk : firstKeyAbove st.messages_ lo = some (k, v) := by
      rw [hm]
      exact firstKeyAbove_split hpre (hsuf _ (List.mem_cons_self _ _))
    rw [flushFirst, hfk]
    cases fuel with
    | zero => exact absurd hf (by simp)
    | succ f =>
      have hpl : produceLoop k st []
          = (none, { st with trace := st.trace ++ [Event.submit k] }, []) := rfl
      simp only [hpl]
      have hrel := (List.pairwise_append.mp hp).2.2
      have hcons := List.pairwise_cons.mp (List.pairwise_append.mp hp).2.1
      have h2 := ih (pre ++ [(k, v)]) (some k) f
        { st with trace := st.trace ++ [Event.submit k] }
        (by simp [hm])
        (by
          have : (pre ++ [(k, v)]) ++ suffix = pre ++ (k, v) :: suffix := by
            simp
          rw [this]
          exact hp)
        (by
          intro q hq
          rcases List.mem_append.mp hq with hq | hq
          · have := hrel q hq (k, v) (List.mem_cons_self _ _)
            simp only [belowKey]
            omega
          · simp only [List.mem_singleton] at hq
            subst hq
            simp [belowKey])
        (by
          intro q hq
          exact hcons.1 q hq)
        (by simpa using hf)
      rw [h2]
      simp

/-- The initial pass of flush when the j-th submission (0-based, in key
order) is rejected with a non-queue-full error after the first j are
accepted: the error propagates at once, only the first j+1 entries are
ever submitted, and nothing but the trace changes. -/
theorem flushFirst_fatal_script :
    ∀ (j : Nat) (suffix pre : List (Nat × Builder)) (lo : Option Nat)
      (fuel : Nat) (st : PState) (e : Nat),
    st.messages_ = pre ++ suffix →
    List.Pairwise (fun p q : Nat × Builder => p.1 < q.1) (pre ++ suffix) →
    (∀ p ∈ pre, ¬ belowKey lo p.1) →
    (∀ p ∈ suffix, belowKey lo p.1) →
    j < suffix.length →
    j + 1 ≤ fuel →
    flushFirst fuel lo st
        (List.replicate j ProduceResult.ok ++ [ProduceResult.fatal e])
      = some (some (FlushErr.fatal e),
          { st with trace := st.trace
              ++ (suffix.take (j + 1)).map (fun p => Event.submit p.1) }, []) := by
  intro j
  induction j with
  | zero =>
    intro suffix pre lo fuel st e hm hp hpre hsuf hj hf
    cases suffix with
    | nil => simp at hj
    | cons p suffix =>
      obtain ⟨k, v⟩ := p
      have hfk : firstKeyAbove st.messages_ lo = some (k, v) := by
        rw [hm]
        exact firstKeyAbove_split hpre (hsuf _ (List.mem_cons_self _ _))
      rw [flushFirst, hfk]
      cases fuel with
      | zero => exact absurd hf (by simp)
      | succ f =>
        have hpl : produceLoop k st
            (List.replicate 0 ProduceResult.ok ++ [ProduceResult.fatal e])
            = (some e, { st with trace := st.trace ++ [Event.submit k] }, []) := rfl
        simp only [hpl]
        simp
  | succ j ih =>
    intro suffix pre lo fuel st e hm hp hpre hsuf hj hf
    cases suffix with
    | nil => simp at hj
    | cons p suffix =>
      obtain ⟨k, v⟩ := p
      have hfk : firstKeyAbove st.messages_ lo = some (k, v) := by
        rw [hm]
        exact firstKeyAbove_split hpre (hsuf _ (List.mem_cons_self _ _))
      rw [flushFirst, hfk]
      cases fuel with
      | zero => exact absurd hf (by simp)
      | succ f =>
        have hpl : produceLoop k st
            (List.replicate (j + 1) ProduceResult.ok ++ [ProduceResult.fatal e])
            = (none, { st with trace := st.trace ++ [Event.submit k] },
               List.replicate j ProduceResult.ok ++ [ProduceResult.fatal e]) := by
          rw [List.replicate_succ]
          rfl
        simp only [hpl]
        have hrel := (List.pairwise_append.mp hp).2.2
        have hcons := List.pairwise_cons.mp (List.pairwise_append.mp hp).2.1
        have h2 := ih suffix (pre ++ [(k, v)]) (some k) f
          { st with trace := st.trace ++ [Event.submit k] } e
          (by simp [hm])
          (by
            have : (pre ++ [(k, v)]) ++ suffix = pre ++ (k, v) :: suffix := by
              simp
            rw [this]
            exact hp)
          (by
            intro q hq
            rcases List.mem_append.mp hq with hq | hq
            · have := hrel q hq (k, v) (List.mem_cons_self _ _)
              simp only [belowKey]
              omega
            · simp only [List.mem_singleton] at hq
              subst hq
              simp [belowKey])
          (by
            intro q hq
            exact hcons.1 q hq)
          (by simpa using hj)
          (by omega)
        rw [h2]
        rw [List.take_succ_cons]
        simp

theorem mapErase_of_find_none {m : List (Nat × Builder)} {k : Nat}
    (h : mapFind m k = none) : mapErase m k = m := by
  induction m with
  | nil => rfl
  | cons p rest ih =>
    rw [mapFind] at h
    by_cases hp : p.1 = k
    · rw [if_pos hp] at h
      exact Option.noConfusion h
    · rw [if_neg hp] at h
      rw [mapErase, if_neg hp, ih h]

theorem mapErase_sublist (m : List (Nat × Builder)) (k : Nat) :
    (mapErase m k).Sublist m := by
  induction m with
  | nil => simp [mapErase]
  | cons p rest ih =>
    rw [mapErase]
    by_cases hp : p.1 = k
    · rw [if_pos hp]
      exact List.sublist_cons_self p rest
    · rw [if_neg hp]
      exact ih.cons₂ p

theorem mem_mapErase {m : List (Nat × Builder)} {k : Nat} {p : Nat × Builder}
    (hpw : List.Pairwise (fun a b : Nat × Builder => a.1 < b.1) m)
    (hp : p ∈ mapErase m k) : p ∈ m ∧ p.1 ≠ k := by
  induction m with
  | nil => simp [mapErase] at hp
  | cons q rest ih =>
    rw [List.pairwise_cons] at hpw
    rw [mapErase] at hp
    by_cases hq : q.1 = k
    · rw [if_pos hq] at hp
      refine ⟨List.mem_cons_of_mem _ hp, ?_⟩
      have := hpw.1 p hp
      omega
    · rw [if_neg hq] at hp
      rcases List.mem_cons.mp hp with heq | hmem
      · subst heq
        exact ⟨List.mem_cons_self _ _, hq⟩
      · obtain ⟨h1, h2⟩ := ih hpw.2 hmem
        exact ⟨List.mem_cons_of_mem _ h1, h2⟩

theorem eraseAll_sublist (ts : List Nat) :
    ∀ m : List (Nat × Builder), (eraseAll m ts).Sublist m := by
  induction ts with
  | nil =>
    intro m
    simp [eraseAll]
  | cons t ts ih =>
    intro m
    have h : eraseAll m (t :: ts) = eraseAll (mapErase m t) ts := rfl
    rw [h]
    exact (ih (mapErase m t)).trans (mapErase_sublist m t)

theorem mem_eraseAll (ts : List Nat) :
    ∀ (m : List (Nat × Builder)) (p : Nat × Builder),
    List.Pairwise (fun a b : Nat × Builder => a.1 < b.1) m →
    p ∈ eraseAll m ts → p ∈ m ∧ p.1 ∉ ts := by
  induction ts with
  | nil =>
    intro m p hpw hp
    exact ⟨by simpa [eraseAll] using hp, by simp⟩
  | cons t ts ih =>
    intro m p hpw hp
    have h : eraseAll m (t :: ts) = eraseAll (mapErase m t) ts := rfl
    rw [h] at hp
    have hpw2 := List.Pairwise.sublist (mapErase_sublist m t) hpw
    obtain ⟨h1, h2⟩ := ih (mapErase m t) p hpw2 hp
    obtain ⟨h3, h4⟩ := mem_mapErase hpw h1
    refine ⟨h3, ?_⟩
    simp only [List.mem_cons]
    rintro (h5 | h5)
    · exact h4 h5
    · exact h2 h5

theorem on_delivery_report_success (st : PState) (r : Report)
    (h : r.isError = false) :
    on_delivery_report st r
      = { st with messages_ := mapErase st.messages_ r.token,
                  trace := st.trace ++ [Event.ack r.token false] } := by
  unfold on_delivery_report
  cases hf : mapFind st.messages_ r.token with
  | none => simp [hf, h, mapErase_of_find_none hf]
  | some b => simp [hf, h]

theorem runReports_success : ∀ (rs : List Report) (st : PState),
    (∀ r ∈ rs, r.isError = false) →
    runReports st rs
      = { st with messages_ := eraseAll st.messages_ (rs.map Report.token),
                  trace := st.trace
                    ++ rs.map (fun r => Event.ack r.token false) } := by
  intro rs
  induction rs with
  | nil =>
    intro st h
    simp [runReports, eraseAll]
  | cons r rs ih =>
    intro st h
    have h1 : runReports st (r :: rs) = runReports (on_delivery_report st r) rs := rfl
    rw [h1, on_delivery_report_success st r (h r (List.mem_cons_self _ _)),
        ih _ (fun q hq => h q (List.mem_cons_of_mem _ hq))]
    have h2 : eraseAll (mapErase st.messages_ r.token) (rs.map Report.token)
        = eraseAll st.messages_ ((r :: rs).map Report.token) := rfl
    simp [h2]

theorem set_failed_nil (st : PState) (h : st.failed_indexes_ = []) :
    { st with failed_indexes_ := [] } = st := by
  cases st
  simp_all

theorem flushWhile_step (f : Nat) (st : PState) (script : List ProduceResult)
    (hne : st.messages_.isEmpty = false) :
    flushWhile (f + 1) st script
      = match retryPass (poll st).failed_indexes_ (poll st) script with
        | (some e, st2, script2) => some (some e, st2, script2)
        | (none, st2, script2) =>
          flushWhile f { st2 with failed_indexes_ := [] } script2 := by
  rw [flushWhile]
  simp [hne]

/-- The drain loop of flush, under a broker that reports only successes:
as long as every pending token is eventually acknowledged by some
scripted poll batch, the loop terminates with an empty pending table and
performs no further submission. -/
theorem flushWhile_drain : ∀ (polls : List (List Report)) (fuel : Nat)
    (st : PState),
    st.pollBatches = polls →
    st.failed_indexes_ = [] →
    List.Pairwise (fun p q : Nat × Builder => p.1 < q.1) st.messages_ →
    (∀ b ∈ polls, ∀ r ∈ b, r.isError = false) →
    (∀ p ∈ st.messages_, ∃ b ∈ polls, ∃ r ∈ b, Report.token r = p.1) →
    polls.length + 1 ≤ fuel →
    ∃ st2, flushWhile fuel st [] = some (none, st2, [])
      ∧ st2.messages_ = []
      ∧ (∀ t, countSubmit st2.trace t = countSubmit st.trace t) := by
  intro polls
  induction polls with
  | nil =>
    intro fuel st hpb hfail hpw hsucc hcover hfuel
    have hempty : st.messages_ = [] := by
      cases hm : st.messages_ with
      | nil => rfl
      | cons p l =>
        obtain ⟨b, hb, _⟩ := hcover p (by rw [hm]; exact List.mem_cons_self _ _)
        simp at hb
    refine ⟨st, ?_, hempty, fun t => rfl⟩
    rw [flushWhile.eq_def]
    simp [hempty]
  | cons batch ps ih =>
    intro fuel st hpb hfail hpw hsucc hcover hfuel
    by_cases hempty : st.messages_ = []
    · refine ⟨st, ?_, hempty, fun t => rfl⟩
      rw [flushWhile.eq_def]
      simp [hempty]
    · obtain ⟨f, rfl⟩ : ∃ f, fuel = f + 1 := ⟨fuel - 1, by omega⟩
      have hie : st.messages_.isEmpty = false := by
        cases hm : st.messages_ with
        | nil => exact absurd hm hempty
        | cons p l => rfl
      rw [flushWhile_step f st [] hie]
      have hpoll2 : poll st
          = { st with
                messages_ := eraseAll st.messages_ (batch.map Report.token),
                failed_indexes_ := [],
                pollBatches := ps,
                trace := (st.trace ++ [Event.poll])
                  ++ batch.map (fun r => Event.ack r.token false) } := by
        rw [poll]
        simp only [hpb]
        rw [runReports_success batch _ (hsucc batch (List.mem_cons_self _ _))]
        rw [hfail]
      rw [hpoll2]
      obtain ⟨st2, hw, he2, hc2⟩ := ih f
        { st with
            messages_ := eraseAll st.messages_ (batch.map Report.token),
            failed_indexes_ := [],
            pollBatches := ps,
            trace := (st.trace ++ [Event.poll])
              ++ batch.map (fun r => Event.ack r.token false) }
        rfl rfl
        (List.Pairwise.sublist (eraseAll_sublist _ _) hpw)
        (fun b hb => hsucc b (List.mem_cons_of_mem _ hb))
        (by
          intro p hp
          obtain ⟨hmem, hnot⟩ := mem_eraseAll (batch.map Report.token)
            st.messages_ p hpw hp
          obtain ⟨b, hb, r, hr, htok⟩ := hcover p hmem
          rcases List.mem_cons.mp hb with heq | hmem2
          · subst heq
            exact absurd (List.mem_map.mpr ⟨r, hr, htok⟩) hnot
          · exact ⟨b, hmem2, r, hr, htok⟩)
        (by
          simp only [List.length_cons] at hfuel
          omega)
      refine ⟨st2, hw, he2, ?_⟩
      intro t
      rw [hc2 t]
      rw [show (PState.trace { st with
            messages_ := eraseAll st.messages_ (batch.map Report.token),
            failed_indexes_ := ([] : List Nat),
            pollBatches := ps,
            trace := (st.trace ++ [Event.poll])
              ++ batch.map (fun r => Event.ack r.token false) })
          = (st.trace ++ [Event.poll])
              ++ batch.map (fun r => Event.ack r.token false) from rfl]
      rw [countSubmit_append, countSubmit_append, countSubmit_poll_single,
          countSubmit_acks]
      omega

theorem stage_single (polls : List (List Report)) (b : Builder) :
    stageAll [b] (initState polls)
      = { messages_ := [(0, stage (Topic.mk b.topic.name) b)],
          failed_indexes_ := [], current_index_ := 0,
          topics_ := [Topic.mk b.topic.name],
          topic_mapping_ := [(b.topic.name, 0)],
          pollBatches := polls,
          trace := [Event.resolveTopic b.topic.name] } := by
  rfl

/-! Claim theorems. -/

/-- Claim C1 is violated by the code (code bug): the token handed out by
an enqueue is messages_.size() at staging time, not the value of the
per-instance counter current_index_ (which the source declares at line
88 but never touches), so tokens are reused.  Concretely: the very first
enqueue is assigned token 0; after one flush drains the table, the next
enqueue is again assigned token 0.  This refutes strictly increasing
assignment and no reuse over the lifetime of the instance. -/
theorem c1_token_reuse :
    keysOf (add_message (initState [[⟨0, false⟩]]) (mkB "t" 1)).messages_ = [0]
    ∧ flush 2 (add_message (initState [[⟨0, false⟩]]) (mkB "t" 1)) []
        = some (none, c1_mid, [])
    ∧ c1_mid.messages_ = []
    ∧ keysOf (add_message c1_mid (mkB "t" 2)).messages_ = [0] := by
  decide

/-- Claim C2 is violated by the code (code bug): because the token is
taken from messages_.size() rather than the unused counter, an enqueue
performed after a flush aborted mid-way (token 0 acknowledged, tokens 1
and 2 still pending, so size is 2, colliding with live key 2) hits
std::map::emplace on an existing key, which inserts nothing.  The whole
enqueue is a no-op: the table does not grow and the message is silently
lost, contradicting the claim that after enqueue returns the table
contains the new entry and has grown by one. -/
theorem c2_enqueue_dropped :
    flush 5 (stageAll [mkB "t" 1, mkB "t" 2, mkB "t" 3] (initState [[⟨0, false⟩]]))
        [ProduceResult.ok, ProduceResult.queueFull, ProduceResult.fatal 7]
      = some (some (FlushErr.fatal 7), c2_mid, [])
    ∧ c2_mid.messages_.length = 2
    ∧ add_message c2_mid (mkB "t" 4) = c2_mid := by
  decide

/-- Claim C9 is violated by the code (code bug): the retry pass of flush
runs produce_message(index, messages_.at(index)) for every recorded
failed index, and std::map::at raises std::out_of_range when the entry
was already erased.  Concretely: tokens 0 and 1 both fail; while token 0
is being re-submitted, a queue-full poll delivers a (duplicate) success
for token 1, erasing it; the retry pass then reaches token 1 and
messages_.at throws instead of skipping the absent entry. -/
theorem c9_retry_out_of_range :
    flush 3 (stageAll [mkB "t" 1, mkB "t" 2]
        (initState [[⟨0, true⟩, ⟨1, true⟩], [⟨1, false⟩]]))
        [ProduceResult.ok, ProduceResult.ok, ProduceResult.queueFull,
         ProduceResult.ok]
      = some (some FlushErr.outOfRange, c9_final, []) := by
  decide

/-- Claim C5: a delivery report whose token is not in the pending table
is a no-op: the callback returns normally and the state is unchanged
except for the logged callback invocation; in particular messages_,
failed_indexes_, the topic cache, the counter and the remaining poll
script are untouched. -/
theorem c5_unknown_token_noop (st : PState) (r : Report)
    (h : mapFind st.messages_ r.token = none) :
    on_delivery_report st r
      = { st with trace := st.trace ++ [Event.ack r.token r.isError] } := by
  unfold on_delivery_report
  simp [h]

theorem c5_unknown_token_noop_witness :
    mapFind (initState []).messages_ (5 : Nat) = none
    ∧ on_delivery_report (initState []) ⟨5, true⟩
        = { initState [] with trace := (initState []).trace ++ [Event.ack 5 true] } :=
  ⟨rfl, c5_unknown_token_noop (initState []) ⟨5, true⟩ rfl⟩

/-- Claim C4: for a report whose token is pending, the success branch
erases exactly that entry and the failure branch appends the token to
failed_indexes_ leaving the table untouched; in both branches nothing
else of the buffer state changes (the record updates fix every other
field).  Erasure happens nowhere else: enqueues never remove or replace
a pending entry and topic resolution does not touch the table; polls and
produce calls mutate messages_ only by invoking this very callback
(definitionally, poll folds on_delivery_report over the delivered
batch). -/
theorem c4_reconciler (st : PState) (r : Report) (b : Builder)
    (hfind : mapFind st.messages_ r.token = some b) :
    (r.isError = true →
      on_delivery_report st r
        = { st with failed_indexes_ := st.failed_indexes_ ++ [r.token],
                    trace := st.trace ++ [Event.ack r.token r.isError] })
    ∧ (r.isError = false →
      on_delivery_report st r
        = { st with messages_ := mapErase st.messages_ r.token,
                    trace := st.trace ++ [Event.ack r.token r.isError] })
    ∧ (∀ (st2 : PState) (b2 : Builder) (k : Nat) (v : Builder),
        List.Pairwise (fun p q => p.1 < q.1) st2.messages_ →
        mapFind st2.messages_ k = some v →
        mapFind (do_add_message st2 b2).messages_ k = some v)
    ∧ (∀ (st2 : PState) (name : String),
        ((get_topic st2 name).1).messages_ = st2.messages_) := by
  refine ⟨?_, ?_, ?_, ?_⟩
  · intro he
    unfold on_delivery_report
    simp [hfind, he]
  · intro he
    unfold on_delivery_report
    simp [hfind, he]
  · intro st2 b2 k v hp hf
    unfold do_add_message
    simp only [get_topic_messages]
    exact mapFind_emplace_of_find _ _ hp hf
  · intro st2 name
    exact get_topic_messages st2 name

theorem c4_reconciler_witness :
    mapFind (stageAll [mkB "t" 1] (initState [])).messages_ 0 = some (mkB "t" 1)
    ∧ on_delivery_report (stageAll [mkB "t" 1] (initState [])) ⟨0, false⟩
        = { stageAll [mkB "t" 1] (initState []) with
              messages_ := mapErase (stageAll [mkB "t" 1] (initState [])).messages_ 0,
              trace := (stageAll [mkB "t" 1] (initState [])).trace
                ++ [Event.ack 0 false] } :=
  ⟨by decide,
   (c4_reconciler (stageAll [mkB "t" 1] (initState [])) ⟨0, false⟩ (mkB "t" 1)
      (by decide)).2.1 rfl⟩

/-- Claim C10: a flush on an empty pending table returns at once: no
produce call, no poll call, and the state (pending table, failed set,
topic cache, counter, trace) and the produce script are returned exactly
as they were. -/
theorem c10_flush_empty_noop (fuel : Nat) (st : PState)
    (script : List ProduceResult) (h : st.messages_ = []) :
    flush fuel st script = some (none, st, script) := by
  rw [flush, flushFirst]
  simp only [h, firstKeyAbove]
  rw [flushWhile.eq_def]
  simp [h]

theorem c10_flush_empty_noop_witness :
    (initState []).messages_ = []
    ∧ flush 0 (initState []) [] = some (none, initState [], []) :=
  ⟨rfl, c10_flush_empty_noop 0 (initState []) [] rfl⟩

/-- Claim C8: against a broker that answers queue-full for the first K
produce attempts of the single staged message and accepts the (K+1)-th
(polls during the retry loop deliver nothing; the drain loop's final
poll delivers the success report), flush terminates, the message is
submitted exactly K+1 times, and between each pair of consecutive
submission attempts exactly one poll call occurs, which is visible in
the explicit trace equality: the flush portion of the trace is K
repetitions of submit-then-poll followed by the accepted submit, the
drain-loop poll and the acknowledgment. -/
theorem c8_queue_full_retry (K : Nat) (b : Builder) :
    flush 2
        (stageAll [b]
          (initState (List.replicate K ([] : List Report) ++ [[⟨0, false⟩]])))
        (List.replicate K ProduceResult.queueFull ++ [ProduceResult.ok])
      = some (none,
          { messages_ := [], failed_indexes_ := [], current_index_ := 0,
            topics_ := [Topic.mk b.topic.name],
            topic_mapping_ := [(b.topic.name, 0)],
            pollBatches := [],
            trace := [Event.resolveTopic b.topic.name]
              ++ ((List.replicate K [Event.submit 0, Event.poll]).flatten
                  ++ [Event.submit 0])
              ++ [Event.poll, Event.ack 0 false] }, [])
    ∧ countSubmit ([Event.resolveTopic b.topic.name]
          ++ ((List.replicate K [Event.submit 0, Event.poll]).flatten
              ++ [Event.submit 0])
          ++ [Event.poll, Event.ack 0 false]) 0 = K + 1
    ∧ countPoll ([Event.resolveTopic b.topic.name]
          ++ ((List.replicate K [Event.submit 0, Event.poll]).flatten
              ++ [Event.submit 0])
          ++ [Event.poll, Event.ack 0 false]) = K + 1 := by
  refine ⟨?_, ?_, ?_⟩
  · rw [stage_single]
    have h2 := produceLoop_replicate K 0
      { messages_ := [(0, stage (Topic.mk b.topic.name) b)],
        failed_indexes_ := [], current_index_ := 0,
        topics_ := [Topic.mk b.topic.name],
        topic_mapping_ := [(b.topic.name, 0)],
        pollBatches := List.replicate K ([] : List Report) ++ [[⟨0, false⟩]],
        trace := [Event.resolveTopic b.topic.name] }
      [[⟨0, false⟩]] rfl
    simp [flush, flushFirst, flushWhile, firstKeyAbove, retryPass, poll,
          runReports, on_delivery_report, mapFind, mapErase, h2]
  · rw [countSubmit_append, countSubmit_append, countSubmit_append,
        countSubmit_block]
    simp [countSubmit]
  · rw [countPoll_append, countPoll_append, countPoll_append,
        countPoll_block K 0]
    simp [countPoll]

/-- Claim C7: a non-queue-full produce error aborts flush at once.
First conjunct, for any staged sequence: when the broker accepts the
first j submissions of the initial pass and rejects the (j+1)-th with a
non-queue-full error e, flush propagates exactly that error, the trace
ends at the rejected submission (so the rejected submission is never
locally retried), every entry after the j-th is never submitted (its
submit count is 0) while each of the first j+1 is submitted exactly
once, and the pending table is returned exactly as staged (no
acknowledgment was observed before the error, so nothing was removed).
Second conjunct, the spec scenario with an acknowledgment before the
error: of three staged messages, the first is accepted and then
acknowledged during the queue-full poll of the second, whose retried
submission is rejected fatally; flush raises that error immediately,
the pending table holds exactly the two entries not yet removed by the
acknowledgment observed before the error, and the third entry was never
submitted (the trace contains no submit of token 2). -/
theorem c7_nontransient_aborts :
    (∀ (bs : List Builder) (j e : Nat), j < bs.length →
      flush (bs.length + 1) (stageAll bs (initState []))
          (List.replicate j ProduceResult.ok ++ [ProduceResult.fatal e])
        = some (some (FlushErr.fatal e),
            { stageAll bs (initState []) with
                trace := (stageAll bs (initState [])).trace
                  ++ ((stagedFrom 0 bs).take (j + 1)).map
                      (fun p => Event.submit p.1) }, [])
      ∧ (∀ t, j < t →
          countSubmit ((stageAll bs (initState [])).trace
            ++ ((stagedFrom 0 bs).take (j + 1)).map
                (fun p => Event.submit p.1)) t = 0)
      ∧ (∀ t, t ≤ j →
          countSubmit ((stageAll bs (initState [])).trace
            ++ ((stagedFrom 0 bs).take (j + 1)).map
                (fun p => Event.submit p.1)) t = 1))
    ∧ (∀ (p0 p1 p2 : Int) (k0 l0 k1 l1 k2 l2 : List Nat) (e : Nat),
      flush 5
          (stageAll [⟨⟨"t1"⟩, p0, k0, l0⟩, ⟨⟨"t1"⟩, p1, k1, l1⟩,
                     ⟨⟨"t2"⟩, p2, k2, l2⟩]
            (initState [[⟨0, false⟩]]))
          [ProduceResult.ok, ProduceResult.queueFull, ProduceResult.fatal e]
        = some (some (FlushErr.fatal e),
            { messages_ := [(1, ⟨⟨"t1"⟩, p1, k1, l1⟩), (2, ⟨⟨"t2"⟩, p2, k2, l2⟩)],
              failed_indexes_ := [], current_index_ := 0,
              topics_ := [⟨"t1"⟩, ⟨"t2"⟩],
              topic_mapping_ := [("t1", 0), ("t2", 1)],
              pollBatches := [],
              trace := [Event.resolveTopic "t1", Event.resolveTopic "t2",
                        Event.submit 0, Event.submit 1, Event.poll,
                        Event.ack 0 false, Event.submit 1] }, [])) := by
  constructor
  · intro bs j e hj
    have hT0 : TopicInv (initState []) := by
      intro n i h
      simp [initState, assocFind] at h
    have hB0 : ∀ p ∈ (initState []).messages_,
        p.1 < (initState []).messages_.length := by
      intro p hp
      simp [initState] at hp
    obtain ⟨hmsg, hT, hfail, hpolls, hcur, hcnt⟩ :=
      stageAll_spec bs (initState []) hT0 hB0
    have hmsg2 : (stageAll bs (initState [])).messages_ = stagedFrom 0 bs := by
      rw [hmsg]
      simp [initState]
    have hpw := stagedFrom_pairwise bs 0
    have hcnt0 : ∀ t, countSubmit (stageAll bs (initState [])).trace t = 0 := by
      intro t
      rw [hcnt t]
      simp [initState, countSubmit]
    have hcount : ∀ t, countSubmit ((stageAll bs (initState [])).trace
        ++ ((stagedFrom 0 bs).take (j + 1)).map (fun p => Event.submit p.1)) t
        = if t < j + 1 then 1 else 0 := by
      intro t
      rw [countSubmit_append, hcnt0 t, countSubmit_map_keys]
      have hk : keysOf ((stagedFrom 0 bs).take (j + 1))
          = natsFrom 0 (j + 1) := by
        rw [keysOf, List.map_take, ← keysOf, stagedFrom_keys, natsFrom_take]
        have : min (j + 1) bs.length = j + 1 := by omega
        rw [this]
      rw [hk, natsFrom_count]
      have h0t : (0 ≤ t ∧ t < 0 + (j + 1)) ↔ t < j + 1 := by omega
      by_cases hcase : t < j + 1
      · simp [hcase, h0t]
      · simp [hcase, h0t]
    have h1 := flushFirst_fatal_script j (stagedFrom 0 bs) [] none
      (bs.length + 1) (stageAll bs (initState [])) e
      (by rw [hmsg2]; simp)
      (by simpa using hpw)
      (by intro p hp; simp at hp)
      (by intro p hp; exact trivial)
      (by rw [stagedFrom_length]; exact hj)
      (by omega)
    refine ⟨?_, ?_, ?_⟩
    · rw [flush, h1]
    · intro t ht
      rw [hcount t, if_neg (by omega)]
    · intro t ht
      rw [hcount t, if_pos (by omega)]
  · intro p0 p1 p2 k0 l0 k1 l1 k2 l2 e
    rfl

/-- Claim C3: for any sequence of enqueues followed by one flush, if the
broker accepts every submission (empty produce script, i.e. no produce
call is ever rejected) and acknowledges every staged message
successfully (the poll batches carry only success reports; every staged
token appears in some batch), then flush terminates with the pending
table empty and each staged message was submitted to the broker exactly
once. -/
theorem c3_flush_drains (bs : List Builder) (polls : List (List Report))
    (hsucc : ∀ b ∈ polls, ∀ r ∈ b, r.isError = false)
    (hcover : ∀ t, t < bs.length → ∃ b ∈ polls, ∃ r ∈ b, Report.token r = t) :
    ∃ stF, flush (bs.length + polls.length + 1)
        (stageAll bs (initState polls)) [] = some (none, stF, [])
      ∧ stF.messages_ = []
      ∧ (∀ t, t < bs.length → countSubmit stF.trace t = 1) := by
  have hT0 : TopicInv (initState polls) := by
    intro n i h
    simp [initState, assocFind] at h
  have hB0 : ∀ p ∈ (initState polls).messages_,
      p.1 < (initState polls).messages_.length := by
    intro p hp
    simp [initState] at hp
  obtain ⟨hmsg, hT, hfail, hpolls, hcur, hcnt⟩ :=
    stageAll_spec bs (initState polls) hT0 hB0
  have hmsg2 : (stageAll bs (initState polls)).messages_ = stagedFrom 0 bs := by
    rw [hmsg]
    simp [initState]
  have hpw := stagedFrom_pairwise bs 0
  have hfail2 : (stageAll bs (initState polls)).failed_indexes_ = [] := by
    rw [hfail]
    rfl
  have hpolls2 : (stageAll bs (initState polls)).pollBatches = polls := by
    rw [hpolls]
    rfl
  have hcnt0 : ∀ t, countSubmit (stageAll bs (initState polls)).trace t = 0 := by
    intro t
    rw [hcnt t]
    simp [initState, countSubmit]
  have h1 := flushFirst_ok_script (stagedFrom 0 bs) [] none
    (bs.length + polls.length + 1) (stageAll bs (initState polls))
    (by rw [hmsg2]; simp)
    (by simpa using hpw)
    (by intro p hp; simp at hp)
    (by intro p hp; exact trivial)
    (by rw [stagedFrom_length]; omega)
  obtain ⟨st2, hw, he2, hc2⟩ := flushWhile_drain polls
    (bs.length + polls.length + 1)
    { stageAll bs (initState polls) with
        trace := (stageAll bs (initState polls)).trace
          ++ (stagedFrom 0 bs).map (fun p => Event.submit p.1) }
    hpolls2 hfail2
    (by
      have heq : PState.messages_
          { stageAll bs (initState polls) with
              trace := (stageAll bs (initState polls)).trace
                ++ (stagedFrom 0 bs).map (fun p => Event.submit p.1) }
          = stagedFrom 0 bs := hmsg2
      rw [heq]
      exact hpw)
    hsucc
    (by
      intro p hp
      have hp2 : p ∈ stagedFrom 0 bs := by
        rw [← hmsg2]
        exact hp
      have hk : p.1 ∈ natsFrom 0 bs.length := by
        rw [← stagedFrom_keys]
        exact List.mem_map.mpr ⟨p, hp2, rfl⟩
      have hlt : p.1 < bs.length := by
        have := (natsFrom_mem bs.length 0 p.1).mp hk
        omega
      exact hcover p.1 hlt)
    (by omega)
  refine ⟨st2, ?_, he2, ?_⟩
  · rw [flush, h1]
    exact hw
  · intro t ht
    rw [hc2 t]
    rw [show PState.trace
        { stageAll bs (initState polls) with
            trace := (stageAll bs (initState polls)).trace
              ++ (stagedFrom 0 bs).map (fun p => Event.submit p.1) }
        = (stageAll bs (initState polls)).trace
            ++ (stagedFrom 0 bs).map (fun p => Event.submit p.1) from rfl]
    rw [countSubmit_append, hcnt0 t, countSubmit_map_keys, stagedFrom_keys,
        natsFrom_count]
    have h0t : 0 ≤ t ∧ t < 0 + bs.length := by omega
    rw [if_pos h0t]

theorem c3_flush_drains_witness :
    (∀ b ∈ [[(⟨0, false⟩ : Report)]], ∀ r ∈ b, r.isError = false)
    ∧ (∀ t, t < ([mkB "t" 1] : List Builder).length →
        ∃ b ∈ [[(⟨0, false⟩ : Report)]], ∃ r ∈ b, Report.token r = t)
    ∧ ∃ stF, flush (([mkB "t" 1] : List Builder).length
          + ([[(⟨0, false⟩ : Report)]] : List (List Report)).length + 1)
        (stageAll [mkB "t" 1] (initState [[⟨0, false⟩]])) []
        = some (none, stF, [])
      ∧ stF.messages_ = []
      ∧ (∀ t, t < ([mkB "t" 1] : List Builder).length
          → countSubmit stF.trace t = 1) :=
  ⟨by decide, by decide,
   c3_flush_drains [mkB "t" 1] [[⟨0, false⟩]] (by decide) (by decide)⟩

theorem c7_nontransient_aborts_witness :
    1 < ([mkB "t" 1, mkB "t" 2, mkB "t" 3] : List Builder).length
    ∧ flush (([mkB "t" 1, mkB "t" 2, mkB "t" 3] : List Builder).length + 1)
        (stageAll [mkB "t" 1, mkB "t" 2, mkB "t" 3] (initState []))
        (List.replicate 1 ProduceResult.ok ++ [ProduceResult.fatal 7])
      = some (some (FlushErr.fatal 7),
          { stageAll [mkB "t" 1, mkB "t" 2, mkB "t" 3] (initState []) with
              trace := (stageAll [mkB "t" 1, mkB "t" 2, mkB "t" 3]
                  (initState [])).trace
                ++ ((stagedFrom 0 [mkB "t" 1, mkB "t" 2, mkB "t" 3]).take (1 + 1)).map
                    (fun p => Event.submit p.1) }, []) :=
  ⟨by decide,
   (c7_nontransient_aborts.1 [mkB "t" 1, mkB "t" 2, mkB "t" 3] 1 7 (by decide)).1⟩

end Cppkafka
